import Mathlib

/-!
Verification of the caddy-casefold path-normalization core (`handler.go`).

The embedding works at the rune (character) level: a Go string is modelled
as a `List Char`.  Pure Go functions from the source become Lean functions;
the filesystem is an explicit value (`FS`) and every directory access the
code performs is recorded in an explicit log, so that "no I/O happens"
claims are statements about that log.
-/

namespace Casefold

/-- A Go string, modelled at the rune level. -/
abbrev Str := List Char

/-- Association-list lookup used by the character tables below. -/
def lookChar {α : Type} : List (Char × α) → Char → Option α
  | [], _ => none
  | (k, v) :: rest, c => if c = k then some v else lookChar rest c

/-- Modelled from the spec: the Unicode simple-lowercase table behind the Go
`strings.ToLower` (the `lowerCaser` in `handler.go`).  `strings.ToLower` is
standard-library code outside this repository; the spec describes it as a
"Unicode-aware lowercase mapping applied to every character".  We model it
as a per-character mapping given by a finite table (ASCII plus
representative Unicode rows); characters outside the table map to
themselves, exactly as non-cased characters do under `unicode.ToLower`. -/
def lowerPairs : List (Char × Char) :=
  [('A', 'a'), ('B', 'b'), ('C', 'c'), ('D', 'd'), ('E', 'e'), ('F', 'f'),
   ('G', 'g'), ('H', 'h'), ('I', 'i'), ('J', 'j'), ('K', 'k'), ('L', 'l'),
   ('M', 'm'), ('N', 'n'), ('O', 'o'), ('P', 'p'), ('Q', 'q'), ('R', 'r'),
   ('S', 's'), ('T', 't'), ('U', 'u'), ('V', 'v'), ('W', 'w'), ('X', 'x'),
   ('Y', 'y'), ('Z', 'z'),
   ('À', 'à'), ('Á', 'á'), ('È', 'è'), ('É', 'é'), ('Ì', 'ì'), ('Í', 'í'),
   ('Ò', 'ò'), ('Ó', 'ó'), ('Ö', 'ö'), ('Ø', 'ø'), ('Ù', 'ù'), ('Ü', 'ü'),
   ('Ñ', 'ñ'), ('Þ', 'þ'), ('Δ', 'δ'), ('Σ', 'σ'), ('İ', 'i')]

/-- One character of `strings.ToLower`: table mapping, identity elsewhere. -/
def charLower (c : Char) : Char :=
  match lookChar lowerPairs c with
  | some l => l
  | none => c

/-- The Go `strings.ToLower`, the `lowerCaser.String` transform of `handler.go`. -/
def toLowerStr (s : Str) : Str := s.map charLower

/-- Modelled from the spec: the Unicode full case-folding table behind
`golang.org/x/text/cases.Fold()` (picked for mode `fold` in `Provision`).
`cases.Fold` is library code outside this repository; the spec describes it
as full, locale-independent Unicode case folding, which "may change
character count (e.g., a single character maps to a two-character
sequence)".  We model it as a per-character expansion given by a finite
table (ASCII plus representative rows, including `ß → ss`); characters
outside the table fold to themselves. -/
def foldPairs : List (Char × Str) :=
  [('A', ['a']), ('B', ['b']), ('C', ['c']), ('D', ['d']), ('E', ['e']),
   ('F', ['f']), ('G', ['g']), ('H', ['h']), ('I', ['i']), ('J', ['j']),
   ('K', ['k']), ('L', ['l']), ('M', ['m']), ('N', ['n']), ('O', ['o']),
   ('P', ['p']), ('Q', ['q']), ('R', ['r']), ('S', ['s']), ('T', ['t']),
   ('U', ['u']), ('V', ['v']), ('W', ['w']), ('X', ['x']), ('Y', ['y']),
   ('Z', ['z']),
   ('ß', ['s', 's']), ('ẞ', ['s', 's']),
   ('À', ['à']), ('É', ['é']), ('Ö', ['ö']), ('Ø', ['ø']), ('Ñ', ['ñ']),
   ('Σ', ['σ']), ('ς', ['σ']), ('Δ', ['δ'])]

/-- One character of `cases.Fold`: table expansion, identity elsewhere. -/
def foldChar (c : Char) : Str :=
  match lookChar foldPairs c with
  | some out => out
  | none => [c]

/-- The `cases.Fold().String` transform used for mode `fold`. -/
def foldStr (s : Str) : Str := (s.map foldChar).flatten


/-! ## Path strings: `strings.Split`, `strings.TrimPrefix`, `path.Clean` -/

/-- The Go `strings.Split(s, "/")`. -/
def splitSlash : Str → List Str
  | [] => [[]]
  | c :: rest =>
    match splitSlash rest with
    | [] => [[]]
    | seg :: segs =>
      if c = '/' then [] :: seg :: segs else (c :: seg) :: segs

/-- The Go `strings.Join(l, "/")`. -/
def joinSlash : List Str → Str
  | [] => []
  | [s] => s
  | s :: rest => s ++ '/' :: joinSlash rest

/-- Leading-slash test (`strings.HasPrefix(s, "/")`). -/
def startsWithSlash : Str → Bool
  | [] => false
  | c :: _ => c == '/'

/-- The Go `strings.TrimPrefix(s, "/")`. -/
def stripLeadSlash : Str → Str
  | [] => []
  | c :: rest => if c = '/' then rest else c :: rest

/-- The element-processing loop of the Go `path.Clean`, expressed on the
`/`-separated elements: empty and `.` elements are dropped, `..` pops the
last real element when one exists, is dropped at the root of a rooted
path, and is kept when the path is relative and nothing can be popped.
`acc` is the output stack, most recent element first. -/
def cleanSegs (rooted : Bool) : List Str → List Str → List Str
  | [], acc => acc.reverse
  | s :: rest, acc =>
    if s = [] ∨ s = ['.'] then cleanSegs rooted rest acc
    else if s = ['.', '.'] then
      match acc with
      | [] =>
        if rooted then cleanSegs rooted rest []
        else cleanSegs rooted rest [s]
      | t :: acc2 =>
        if t = ['.', '.'] then cleanSegs rooted rest (s :: t :: acc2)
        else cleanSegs rooted rest acc2
    else cleanSegs rooted rest (s :: acc)

/-- the Go `path.Clean`: lexical normalization of a slash-separated path. -/
def pathClean (p : Str) : Str :=
  if p = [] then ['.']
  else
    let rooted := startsWithSlash p
    let segs := cleanSegs rooted (splitSlash p) []
    if rooted then '/' :: joinSlash segs
    else if segs = [] then ['.']
    else joinSlash segs

/-- The Go `unicode.IsSpace` restricted to the ASCII whitespace runes, which is
all `strings.TrimSpace` needs for the mode strings handled here. -/
def isSpaceChar (c : Char) : Bool :=
  c == ' ' || c == '\t' || c == '\n' || c == '\x0b' || c == '\x0c' || c == '\r'

/-- The Go `strings.TrimSpace`. -/
def trimSpace (s : Str) : Str :=
  ((s.dropWhile isSpaceChar).reverse.dropWhile isSpaceChar).reverse

/-- The normalization `strings.ToLower(strings.TrimSpace(mode))`, computed identically in
`Provision` and `ServeHTTP`. -/
def normMode (m : Str) : Str := toLowerStr (trimSpace m)

/-! ## the Go `path.Match`

A rune-level embedding of `path/match.go` (`Match`, `scanChunk`,
`matchChunk`, `getEsc`).  `ErrBadPattern` is `Except.error ()`.  The
loops of the Go code are driven by an explicit fuel that each recursive
step decrements; every loop iteration of the original consumes at least
one character of the quantity the fuel was seeded from, so the seeds
used below (`length + 1`, and pattern-length plus name-length for the
main loop) make fuel exhaustion unreachable. -/

/-- The Go `getEsc` from `path/match.go`: one (possibly escaped) character of a
character class.  Errors on a malformed class, including a class that
ends right after the character. -/
def getEsc : Str → Except Unit (Char × Str)
  | [] => .error ()
  | c :: rest =>
    if c = '-' ∨ c = ']' then .error ()
    else
      match (if c = '\\' then rest else c :: rest) with
      | [] => .error ()
      | r :: nchunk => if nchunk = [] then .error () else .ok (r, nchunk)

/-- The range-parsing loop of the `[` case of `matchChunk`: consumes
`lo`/`lo-hi` ranges until the closing `]`, recording whether rune `r`
fell in any range. -/
def matchRanges : Nat → Str → Char → Nat → Bool → Except Unit (Str × Bool)
  | 0, _, _, _, _ => .error ()
  | fuel + 1, chunk, r, nrange, seen =>
    match chunk with
    | ']' :: rest =>
      if nrange > 0 then .ok (rest, seen) else .error ()
    | _ =>
      match getEsc chunk with
      | .error () => .error ()
      | .ok (lo, chunk2) =>
        match (match chunk2 with
               | '-' :: chunk2t => getEsc chunk2t
               | _ => .ok (lo, chunk2)) with
        | .error () => .error ()
        | .ok (hi, chunk3) =>
          matchRanges fuel chunk3 r (nrange + 1)
            (if lo ≤ r ∧ r ≤ hi then true else seen)

/-- The Go `matchChunk` from `path/match.go`: matches a chunk (no stars) against
the head of `s`; on success returns the unmatched remainder of `s`.  The
`failed` flag mirrors the Go variable of the same name: once set, the
chunk is only checked for syntax, consuming no more of `s`. -/
def matchChunkGo : Nat → Str → Str → Bool → Except Unit (Str × Bool)
  | 0, _, _, _ => .error ()
  | fuel + 1, chunk, s, failed0 =>
    match chunk with
    | [] => if failed0 then .ok ([], false) else .ok (s, true)
    | c :: chunkRest =>
      let failed := failed0 || s.isEmpty
      if c = '[' then
        let r := if failed then Char.ofNat 0 else s.headD (Char.ofNat 0)
        let s2 := if failed then s else s.tail
        let nc : Bool × Str :=
          match chunkRest with
          | '^' :: cr => (true, cr)
          | cr => (false, cr)
        match matchRanges (nc.2.length + 1) nc.2 r 0 false with
        | .error () => .error ()
        | .ok (chunk3, seen) =>
          matchChunkGo fuel chunk3 s2 (failed || (seen == nc.1))
      else if c = '?' then
        if failed then matchChunkGo fuel chunkRest s failed
        else
          match s with
          | [] => matchChunkGo fuel chunkRest [] true
          | a :: s2 => matchChunkGo fuel chunkRest s2 (a == '/')
      else if c = '\\' then
        match chunkRest with
        | [] => .error ()
        | d :: chunkRest2 =>
          if failed then matchChunkGo fuel chunkRest2 s failed
          else
            match s with
            | [] => matchChunkGo fuel chunkRest2 [] true
            | a :: s2 => matchChunkGo fuel chunkRest2 s2 (a != d)
      else
        if failed then matchChunkGo fuel chunkRest s failed
        else
          match s with
          | [] => matchChunkGo fuel chunkRest [] true
          | a :: s2 => matchChunkGo fuel chunkRest s2 (a != c)

/-- The function `matchChunk` with its fuel seeded from the chunk length. -/
def matchChunk (chunk s : Str) : Except Unit (Str × Bool) :=
  matchChunkGo (chunk.length + 1) chunk s false

/-- The leading-star consumption of `scanChunk`. -/
def dropStars : Str → Bool × Str
  | '*' :: rest => (true, (dropStars rest).2)
  | s => (false, s)

/-- The `Scan` loop of `scanChunk`: split off the chunk up to the next
top-level `*`, honouring `\\` escapes and `[...]` ranges. -/
def scanBody : Bool → Str → Str × Str
  | _, [] => ([], [])
  | inrange, c :: rest =>
    if c = '\\' then
      match rest with
      | [] => ([c], [])
      | d :: rest2 =>
        let cr := scanBody inrange rest2
        (c :: d :: cr.1, cr.2)
    else if c = '[' then
      let cr := scanBody true rest
      (c :: cr.1, cr.2)
    else if c = ']' then
      let cr := scanBody false rest
      (c :: cr.1, cr.2)
    else if c = '*' then
      if inrange then
        let cr := scanBody inrange rest
        (c :: cr.1, cr.2)
      else ([], c :: rest)
    else
      let cr := scanBody inrange rest
      (c :: cr.1, cr.2)

/-- The Go `scanChunk` from `path/match.go`. -/
def scanChunk (pattern : Str) : Bool × Str × Str :=
  let sp := dropStars pattern
  let cr := scanBody false sp.2
  (sp.1, cr.1, cr.2)

/-- The pattern-syntax check the Go `Match` performs on the remaining
pattern before returning a no-error failure. -/
def restCheck : Nat → Str → Except Unit Bool
  | 0, _ => .error ()
  | _ + 1, [] => .ok false
  | fuel + 1, p0 :: prest =>
    let scc := scanChunk (p0 :: prest)
    match matchChunk scc.2.1 [] with
    | .error () => .error ()
    | .ok _ => restCheck fuel scc.2.2

/-- The two loop states of the Go `Match`: the labelled `Pattern` loop, and
the star-backtracking loop that skips characters of `name` (never a
`/`). -/
inductive MState where
  | top (pattern name : Str)
  | star (chunk rest name : Str)

/-- The body of the Go `Match`, one loop iteration per fuel unit. -/
def matchStep : Nat → MState → Except Unit Bool
  | 0, _ => .error ()
  | _ + 1, .top [] name => .ok name.isEmpty
  | fuel + 1, .top (p0 :: prest) name =>
    let scc := scanChunk (p0 :: prest)
    let star := scc.1
    let chunk := scc.2.1
    let rest := scc.2.2
    if star ∧ chunk = [] then .ok (!name.contains '/')
    else
      match matchChunk chunk name with
      | .error () => .error ()
      | .ok (t, ok) =>
        if ok ∧ (t = [] ∨ rest ≠ []) then matchStep fuel (.top rest t)
        else if star then matchStep fuel (.star chunk rest name)
        else restCheck (rest.length + 1) rest
  | fuel + 1, .star chunk rest name =>
    match name with
    | [] => restCheck (rest.length + 1) rest
    | c :: n2 =>
      if c = '/' then restCheck (rest.length + 1) rest
      else
        match matchChunk chunk n2 with
        | .error () => .error ()
        | .ok (t, ok) =>
          if ok then
            if rest = [] ∧ t ≠ [] then matchStep fuel (.star chunk rest n2)
            else matchStep fuel (.top rest t)
          else matchStep fuel (.star chunk rest n2)

/-- the Go `path.Match(pattern, name)`:  `.error ()` is `ErrBadPattern`. -/
def goPathMatch (pattern name : Str) : Except Unit Bool :=
  matchStep (pattern.length + name.length + 1) (.top pattern name)

/-! ## The filesystem, `canonicalFS`, `skip` and the decision pipeline -/

/-- Association-list lookup for string keys. -/
def lookStr {α : Type} : List (Str × α) → Str → Option α
  | [], _ => none
  | (k, v) :: rest, s => if s = k then some v else lookStr rest s

/-- The filesystem visible to `canonicalFS`: `dirs` maps a readable
directory path to its entry names (in listing order), `files` lists the
paths of non-directory entries `os.Stat` can see. -/
structure FS where
  dirs : List (Str × List Str)
  files : List Str

/-- The Go `os.ReadDir` over the modelled filesystem. -/
def readDir (fs : FS) (d : Str) : Option (List Str) := lookStr fs.dirs d

/-- The Go `os.Stat(d)` followed by `IsDir`: `some true` for a readable
directory, `some false` for a plain file, `none` when `Stat` errors. -/
def statIsDir (fs : FS) (d : Str) : Option Bool :=
  match lookStr fs.dirs d with
  | some _ => some true
  | none => if fs.files.contains d then some false else none

/-- The Go `filepath.Join(a, b)` with the slash separator. -/
def joinPath (a b : Str) : Str := pathClean (a ++ '/' :: b)

/-- The entry-selection in the loop body of `canonicalFS`: first the exact
name match, then the case-insensitive match on lowercased names; the
empty string plays the role of the Go `matchName == ""` sentinel. -/
def pickEntry (entries : List Str) (seg : Str) : Str :=
  match entries.find? (fun e => e == seg) with
  | some n => n
  | none =>
    match entries.find? (fun e => toLowerStr e == toLowerStr seg) with
    | some n => n
    | none => []

/-- The per-segment loop of `canonicalFS`.  The third component of the
result records, in order, every path handed to `os.ReadDir` or `os.Stat`
(the only filesystem I/O of the code), including failing calls. -/
def canonGo (fs : FS) (origP : Str) :
    List Str → Str → List Str → List Str → Str × Bool × List Str
  | [], _, built, log => ('/' :: joinSlash built, true, log)
  | seg :: rest, curDir, built, log =>
    match readDir fs curDir with
    | none => (origP, false, log ++ [curDir])
    | some entries =>
      if pickEntry entries seg = [] then (origP, false, log ++ [curDir])
      else if rest = [] then
        ('/' :: joinSlash (built ++ [pickEntry entries seg]), true, log ++ [curDir])
      else
        match statIsDir fs (joinPath curDir (pickEntry entries seg)) with
        | some true =>
          canonGo fs origP rest (joinPath curDir (pickEntry entries seg))
            (built ++ [pickEntry entries seg])
            (log ++ [curDir, joinPath curDir (pickEntry entries seg)])
        | _ => (origP, false, log ++ [curDir, joinPath curDir (pickEntry entries seg)])

/-- The function `canonicalFS` from `handler.go`: resolve each path segment to its
on-disk casing under `root`.  Returns the (possibly rewritten) path, the
success flag, and the I/O log. -/
def canonicalFS (fs : FS) (root p : Str) : Str × Bool × List Str :=
  if root = [] then (p, false, [])
  else
    let clean := pathClean p
    if startsWithSlash clean then
      if clean = ['/'] then (p, false, [])
      else
        let segs := splitSlash (stripLeadSlash clean)
        if ('.' :: '.' :: []) ∈ segs then (p, false, [])
        else canonGo fs p segs root [] []
    else (p, false, [])

/-- The method `skip` from `handler.go`: true when any non-empty exclude pattern
`path.Match`es the path; a pattern error is discarded (`ok, _ :=`), so a
malformed pattern simply never matches. -/
def skip (exclude : List Str) (p : Str) : Bool :=
  match exclude with
  | [] => false
  | gl :: rest =>
    if gl = [] then skip rest p
    else
      match goPathMatch gl p with
      | .ok true => true
      | _ => skip rest p

/-- The configuration fields of the `Casefold` struct. -/
structure Config where
  Mode : Str
  Root : Str
  Exclude : List Str

/-- The `fold` caser chosen by `Provision` from the normalized mode:
`lowerCaser` for empty/`lower` and for unknown modes (with a warning),
`cases.Fold()` for `fold`, and `nil` (here `none`) for `fs`. -/
def provisionFold (mode : Str) : Option (Str → Str) :=
  if mode = [] ∨ mode = "lower".data then some toLowerStr
  else if mode = "fold".data then some foldStr
  else if mode = "fs".data then none
  else some toLowerStr

/-- The RewriteOutcome of the spec. -/
inductive Outcome where
  | unchanged
  | rewritten (newPath : Str)
deriving DecidableEq

/-- The `switch mode` statement of `ServeHTTP`: `lower`/`fold` (and the
empty mode) call the provisioned caser, `fs` calls `canonicalFS` and
falls back to the original on failure, and any other mode string matches
no `switch` case, leaving the path as-is.  A nil caser (impossible for a
provisioned handler, since `Provision` and `ServeHTTP` normalize the
same mode string) is read as the identity.  Returns the transformed path
plus the filesystem I/O log. -/
def modeTransform (fs : FS) (mode root orig : Str) : Str × List Str :=
  if mode = [] ∨ mode = "lower".data ∨ mode = "fold".data then
    (((provisionFold mode).getD id) orig, [])
  else if mode = "fs".data then
    let r := canonicalFS fs root orig
    (if r.2.1 then r.1 else orig, r.2.2)
  else (orig, [])

/-- The decision core of `ServeHTTP`: empty/root short-circuit, exclusion
short-circuit, then the mode dispatch; a final path differing from the
original is a rewrite.  Returns the outcome plus the I/O log. -/
def decideCore (fs : FS) (cfg : Config) (orig : Str) : Outcome × List Str :=
  if orig = [] ∨ orig = ['/'] then (.unchanged, [])
  else if skip cfg.Exclude orig then (.unchanged, [])
  else
    let tl := modeTransform fs (normMode cfg.Mode) cfg.Root orig
    if tl.1 ≠ orig then (.rewritten tl.1, tl.2) else (.unchanged, tl.2)

/-- An HTTP request as `ServeHTTP` sees it: the URL path and raw query of
`r.URL`, the `r.RequestURI` field, and the request headers. -/
structure Request where
  urlPath : Str
  rawQuery : Str
  requestURI : Str
  headers : List (Str × Str)

/-- The response headers `ServeHTTP` can touch. -/
structure ResponseHeaders where
  headers : List (Str × Str)

/-- The Go `Header.Set`: replace any existing value for the key. -/
def setHeader (hs : List (Str × Str)) (k v : Str) : List (Str × Str) :=
  (k, v) :: hs.filter (fun kv => kv.1 != k)

/-- The effect of `ServeHTTP` on the request and response: when the decision
rewrites, set `X-Original-URI` on both, overwrite `r.URL.Path` and
`r.RequestURI` with the transformed path; otherwise touch nothing. -/
def serveHTTP (fs : FS) (cfg : Config) (r : Request) (w : ResponseHeaders) :
    Request × ResponseHeaders :=
  match (decideCore fs cfg r.urlPath).1 with
  | .unchanged => (r, w)
  | .rewritten t =>
    ({ r with
        urlPath := t
        requestURI := t
        headers := setHeader r.headers "X-Original-URI".data r.urlPath },
     { headers := setHeader w.headers "X-Original-URI".data r.urlPath })

/-- Modelled from the spec: the flat-string glob matcher the spec
describes for exclusions — "treats the path as one flat string rather
than treating `/` specially", so `*` matches any run of characters,
slashes included.  Stated only to compare with the `path.Match`
embedding above. -/
def flatGlobMatch : Str → Str → Bool
  | [], name => name.isEmpty
  | '*' :: ps, name => (List.tails name).any (fun suf => flatGlobMatch ps suf)
  | '?' :: ps, _ :: n => flatGlobMatch ps n
  | '?' :: _, [] => false
  | c :: ps, d :: n => c == d && flatGlobMatch ps n
  | _ :: _, [] => false

/-! ## Claim theorems -/

theorem lookChar_mem {α : Type} {l : List (Char × α)} {c : Char} {v : α}
    (h : lookChar l c = some v) : (c, v) ∈ l := by
  induction l with
  | nil => simp [lookChar] at h
  | cons kv rest ih =>
    obtain ⟨k, w⟩ := kv
    by_cases hc : c = k
    · subst hc
      simp [lookChar] at h
      simp [h]
    · simp [lookChar, hc] at h
      exact List.mem_cons_of_mem _ (ih h)

/-- Every character in the image of the lowercase table is itself outside
the table keys: the Unicode lowercase image is fixed by lowercasing. -/
theorem lowerPairs_closed :
    ∀ p ∈ lowerPairs, lookChar lowerPairs p.2 = none := by decide

theorem charLower_idem (c : Char) : charLower (charLower c) = charLower c := by
  unfold charLower
  cases h : lookChar lowerPairs c with
  | none => simp [h]
  | some l =>
    have := lowerPairs_closed _ (lookChar_mem h)
    simp at this
    simp [this]

theorem toLowerStr_idem (s : Str) : toLowerStr (toLowerStr s) = toLowerStr s := by
  unfold toLowerStr
  rw [List.map_map]
  induction s with
  | nil => rfl
  | cons c rest ih =>
    simp only [List.map_cons] at *
    rw [Function.comp_apply, charLower_idem]
    exact congrArg _ ih

/-- Every character produced by the folding table folds to itself. -/
theorem foldPairs_closed :
    ∀ p ∈ foldPairs, ∀ c ∈ p.2, lookChar foldPairs c = none := by decide

theorem foldStr_append (s t : Str) :
    foldStr (s ++ t) = foldStr s ++ foldStr t := by
  unfold foldStr
  rw [List.map_append, List.flatten_append]

theorem foldStr_of_fixed (out : Str) (h : ∀ x ∈ out, foldChar x = [x]) :
    foldStr out = out := by
  induction out with
  | nil => rfl
  | cons d rest ih =>
    have hstep : foldStr (d :: rest) = foldChar d ++ foldStr rest := by
      simp [foldStr]
    rw [hstep, h d (by simp), ih (fun x hx => h x (by simp [hx]))]
    rfl

theorem foldStr_foldChar (c : Char) : foldStr (foldChar c) = foldChar c := by
  cases h : lookChar foldPairs c with
  | none =>
    have : foldChar c = [c] := by unfold foldChar; rw [h]
    rw [this]
    apply foldStr_of_fixed
    intro x hx
    simp at hx
    subst hx
    exact this
  | some out =>
    have hcl := foldPairs_closed _ (lookChar_mem h)
    simp only at hcl
    have : foldChar c = out := by unfold foldChar; rw [h]
    rw [this]
    apply foldStr_of_fixed
    intro x hx
    unfold foldChar
    rw [hcl x hx]

theorem foldStr_idem (s : Str) : foldStr (foldStr s) = foldStr s := by
  induction s with
  | nil => rfl
  | cons c rest ih =>
    have hstep : foldStr (c :: rest) = foldChar c ++ foldStr rest := by
      simp [foldStr]
    rw [hstep, foldStr_append, foldStr_foldChar, ih]

/-- C6: Both Caser variants are idempotent: for every string `p`, the Lower
transform satisfies `transform (transform p) = transform p`, and the Fold
transform satisfies `transform (transform p) = transform p`. -/
theorem caser_idempotent (p : Str) :
    toLowerStr (toLowerStr p) = toLowerStr p ∧
    foldStr (foldStr p) = foldStr p :=
  ⟨toLowerStr_idem p, foldStr_idem p⟩

/-- C9: For all paths `p` with `p = ""` or `p = "/"`, the decision is
UNCHANGED for every configuration and filesystem, with no exclusion
matching, transformation, or filesystem access (empty I/O log). -/
theorem empty_or_root_unchanged (fs : FS) (cfg : Config) (p : Str)
    (h : p = [] ∨ p = ['/']) :
    decideCore fs cfg p = (.unchanged, []) := by
  unfold decideCore
  rw [if_pos h]

theorem empty_or_root_unchanged_spot :
    (("/".data : Str) = [] ∨ ("/".data : Str) = ['/']) ∧
    decideCore (FS.mk [("/".data, ["A".data])] [])
      (Config.mk "fs".data "/".data ["/*".data]) "/".data = (.unchanged, []) :=
  ⟨Or.inr rfl,
   empty_or_root_unchanged (FS.mk [("/".data, ["A".data])] [])
     (Config.mk "fs".data "/".data ["/*".data]) "/".data (Or.inr rfl)⟩

/-- C8: When the normalized mode is `fs` but the root is empty, the mode
is a permanent passthrough: every request path is UNCHANGED and no
filesystem I/O is attempted (empty I/O log). -/
theorem fs_mode_empty_root_passthrough (fs : FS) (cfg : Config) (p : Str)
    (hm : normMode cfg.Mode = "fs".data) (hr : cfg.Root = []) :
    decideCore fs cfg p = (.unchanged, []) := by
  have ht : modeTransform fs (normMode cfg.Mode) cfg.Root p = (p, []) := by
    rw [hm, hr]
    unfold modeTransform canonicalFS
    rw [if_neg (by decide), if_pos (by decide), if_pos rfl]
    rfl
  unfold decideCore
  split
  · rfl
  · split
    · rfl
    · rw [ht]
      simp

theorem fs_mode_empty_root_passthrough_spot :
    normMode "FS".data = "fs".data ∧
    decideCore (FS.mk [("/root".data, ["Abc".data])] [])
      (Config.mk "FS".data [] []) "/Abc".data = (.unchanged, []) :=
  ⟨rfl,
   fs_mode_empty_root_passthrough (FS.mk [("/root".data, ["Abc".data])] [])
     (Config.mk "FS".data [] []) "/Abc".data rfl rfl⟩

/-- C4: Only the path component is transformed; the raw query of the
request is passed through untouched whether the outcome is unchanged or
rewritten. -/
theorem query_passthrough (fs : FS) (cfg : Config) (r : Request)
    (w : ResponseHeaders) :
    ((serveHTTP fs cfg r w).1).rawQuery = r.rawQuery := by
  unfold serveHTTP
  split <;> rfl

/-- C2 (code-bug evidence): with the unrecognized mode `bogus`,
`Provision` logs "defaulting to lower" and installs the Lower caser, but
the `switch` of `ServeHTTP` on the mode string has no default case, so the
path is left unchanged rather than lowercased as the same configuration
under mode `lower` (shown alongside) would produce. -/
theorem unknown_mode_not_lowered :
    decideCore (FS.mk [] []) (Config.mk "bogus".data [] []) "/HeLLo".data
      = (.unchanged, []) ∧
    decideCore (FS.mk [] []) (Config.mk "lower".data [] []) "/HeLLo".data
      = (.rewritten "/hello".data, []) ∧
    toLowerStr "/HeLLo".data = "/hello".data :=
  ⟨rfl, rfl, rfl⟩

theorem goPathMatch_nil_pattern (p : Str) : goPathMatch [] p = .ok p.isEmpty := by
  simp [goPathMatch, matchStep]

theorem skip_of_mem_match {E : List Str} {p : Str} (hp : p ≠ [])
    (h : ∃ gl ∈ E, goPathMatch gl p = .ok true) : skip E p = true := by
  induction E with
  | nil =>
    obtain ⟨gl, hm, _⟩ := h
    cases hm
  | cons g rest ih =>
    obtain ⟨gl, hm, hmatch⟩ := h
    unfold skip
    by_cases hg : g = []
    · rw [if_pos hg]
      apply ih
      rcases List.mem_cons.mp hm with h1 | h1
      · subst h1
        rw [hg, goPathMatch_nil_pattern] at hmatch
        exact absurd (List.isEmpty_iff.mp (Except.ok.inj hmatch)) hp
      · exact ⟨gl, h1, hmatch⟩
    · rw [if_neg hg]
      rcases List.mem_cons.mp hm with h1 | h1
      · subst h1
        rw [hmatch]
      · cases hc : goPathMatch g p with
        | error e => exact ih ⟨gl, h1, hmatch⟩
        | ok b =>
          cases b
          · exact ih ⟨gl, h1, hmatch⟩
          · rfl

/-- C5: Whenever some pattern of the exclusion set `path.Match`es the
path, the decision is UNCHANGED regardless of the configured mode, with
no transformation and no filesystem access (empty I/O log); the totality
of `skip` over arbitrary exclusion lists — malformed patterns are
discarded, never an error to the caller — is built into the embedding. -/
theorem excluded_path_unchanged (fs : FS) (cfg : Config) (p : Str)
    (h : ∃ gl ∈ cfg.Exclude, goPathMatch gl p = .ok true) :
    decideCore fs cfg p = (.unchanged, []) := by
  unfold decideCore
  by_cases h0 : p = [] ∨ p = ['/']
  · rw [if_pos h0]
  · rw [if_neg h0, if_pos (skip_of_mem_match (fun hp => h0 (Or.inl hp)) h)]

theorem excluded_path_unchanged_spot :
    (∃ gl ∈ ["[".data, "/API/*".data], goPathMatch gl "/API/MixedCase".data = .ok true) ∧
    decideCore (FS.mk [] [])
      (Config.mk "fold".data [] ["[".data, "/API/*".data]) "/API/MixedCase".data
      = (.unchanged, []) :=
  ⟨⟨"/API/*".data, by simp, rfl⟩,
   excluded_path_unchanged (FS.mk [] [])
     (Config.mk "fold".data [] ["[".data, "/API/*".data]) "/API/MixedCase".data
     ⟨"/API/*".data, by simp, rfl⟩⟩

/-- C3 counterexample: with pattern `/a*` against path `/a/b`, a
flat-string `*` (the behaviour the claim describes) matches across the
slash, but the `path.Match` of the code refuses to let `*` cross `/`, and the
exclusion matcher therefore does not skip the path. -/
theorem star_crosses_slash_refuted :
    flatGlobMatch "/a*".data "/a/b".data = true ∧
    goPathMatch "/a*".data "/a/b".data = .ok false ∧
    skip ["/a*".data] "/a/b".data = false :=
  ⟨rfl, rfl, rfl⟩

/-- C3 amended: exclusion matching does treat `/` specially — a `*`
wildcard matches exactly the runs of characters that contain no `/`;
in particular the pattern `*` matches a path precisely when the path
contains no slash at all. -/
theorem star_matches_runs_without_slash (name : Str) :
    goPathMatch ['*'] name = .ok (!name.contains '/') := by
  simp [goPathMatch, matchStep, scanChunk, dropStars, scanBody]

/-- C1 counterexample: the raw input `/a/../b` contains a `..` segment,
yet `canonicalFS` cleans the path first (`path.Clean` eliminates the
`..`), then performs a directory read and succeeds, returning `/b` with
`true` — neither the failure result nor the absence of I/O the claim
demands. -/
theorem dotdot_raw_path_reaches_io :
    ('.' :: '.' :: []) ∈ splitSlash "/a/../b".data ∧
    canonicalFS (FS.mk [("/root".data, ["b".data])] []) "/root".data "/a/../b".data
      = ("/b".data, true, ["/root".data]) :=
  ⟨by decide, rfl⟩

/-- C1 amended: the whole-path `..` check runs after `path.Clean`, so the
guarantee holds of the cleaned path: for every input whose cleaned form
still contains a `..` segment, `canonicalFS` returns failure (original
path, `false`) without performing any directory read (empty I/O log). -/
theorem cleaned_dotdot_rejected_without_io (fs : FS) (root p : Str)
    (h : ('.' :: '.' :: []) ∈ splitSlash (stripLeadSlash (pathClean p))) :
    canonicalFS fs root p = (p, false, []) := by
  simp only [canonicalFS]
  repeat' split
  all_goals rfl

theorem startsWithSlash_toLower {p : Str} (h : startsWithSlash p = true) :
    startsWithSlash (toLowerStr p) = true := by
  cases p with
  | nil => simp [startsWithSlash] at h
  | cons c rest =>
    simp [startsWithSlash] at h
    subst h
    rfl

theorem startsWithSlash_fold {p : Str} (h : startsWithSlash p = true) :
    startsWithSlash (foldStr p) = true := by
  cases p with
  | nil => simp [startsWithSlash] at h
  | cons c rest =>
    simp [startsWithSlash] at h
    subst h
    rfl

theorem canonGo_true_slash (fs : FS) (origP : Str) (segs : List Str) :
    ∀ curDir built log q log2,
      canonGo fs origP segs curDir built log = (q, true, log2) →
      startsWithSlash q = true := by
  induction segs with
  | nil =>
    intro curDir built log q log2 h
    unfold canonGo at h
    injection h with h1 h2
    subst h1
    rfl
  | cons seg rest ih =>
    intro curDir built log q log2 h
    unfold canonGo at h
    split at h
    · simp at h
    · split at h
      · simp at h
      · split at h
        · injection h with h1 h2
          subst h1
          rfl
        · split at h
          · exact ih _ _ _ _ _ h
          · simp at h

theorem canonicalFS_true_slash {fs : FS} {root p q : Str} {log : List Str}
    (h : canonicalFS fs root p = (q, true, log)) :
    startsWithSlash q = true := by
  simp only [canonicalFS] at h
  repeat' split at h
  all_goals first
    | exact canonGo_true_slash fs p _ _ _ _ _ _ h
    | simp at h

theorem modeTransform_keeps_slash (fs : FS) (mode root orig : Str)
    (hs : startsWithSlash orig = true) :
    (modeTransform fs mode root orig).1 = orig ∨
    startsWithSlash (modeTransform fs mode root orig).1 = true := by
  unfold modeTransform
  split
  · next hc =>
    right
    rcases hc with h1 | h1 | h1 <;> subst h1
    · exact startsWithSlash_toLower hs
    · exact startsWithSlash_toLower hs
    · exact startsWithSlash_fold hs
  · split
    · rcases hcf : canonicalFS fs root orig with ⟨a, b, c⟩
      cases b
      · left
        simp [hcf]
      · right
        simp only [hcf]
        simpa using canonicalFS_true_slash hcf
    · left
      rfl

/-- C7: RewriteOutcome invariant — for every leading-slash input path, in
every configuration (all three modes and unknown ones alike), whenever
the decision is REWRITTEN(q), the new path `q` differs from the original
and itself begins with `/`. -/
theorem rewrite_outcome_invariant (fs : FS) (cfg : Config) (orig q : Str)
    (log : List Str) (hs : startsWithSlash orig = true)
    (h : decideCore fs cfg orig = (.rewritten q, log)) :
    q ≠ orig ∧ startsWithSlash q = true := by
  simp only [decideCore] at h
  split at h
  · simp at h
  · split at h
    · simp at h
    · split at h
      · next hne =>
        simp only [Prod.mk.injEq, Outcome.rewritten.injEq] at h
        obtain ⟨hq, _⟩ := h
        subst hq
        refine ⟨hne, ?_⟩
        rcases modeTransform_keeps_slash fs (normMode cfg.Mode) cfg.Root orig hs with h1 | h1
        · exact absurd h1 hne
        · exact h1
      · simp at h

theorem rewrite_outcome_invariant_spot :
    startsWithSlash "/A".data = true ∧
    ("/a".data ≠ "/A".data ∧ startsWithSlash "/a".data = true) :=
  ⟨rfl,
   rewrite_outcome_invariant (FS.mk [] []) (Config.mk "lower".data [] [])
     "/A".data "/a".data [] rfl rfl⟩

theorem cleaned_dotdot_rejected_without_io_spot :
    ('.' :: '.' :: []) ∈ splitSlash (stripLeadSlash (pathClean "..".data)) ∧
    canonicalFS (FS.mk [("/root".data, ["b".data])] []) "/root".data "..".data
      = ("..".data, false, []) :=
  ⟨by decide,
   cleaned_dotdot_rejected_without_io (FS.mk [("/root".data, ["b".data])] [])
     "/root".data "..".data (by decide)⟩

theorem lookStr_mem {α : Type} {l : List (Str × α)} {s : Str} {v : α}
    (h : lookStr l s = some v) : (s, v) ∈ l := by
  induction l with
  | nil => simp [lookStr] at h
  | cons kv rest ih =>
    obtain ⟨k, w⟩ := kv
    by_cases hc : s = k
    · subst hc
      simp [lookStr] at h
      simp [h]
    · simp [lookStr, hc] at h
      exact List.mem_cons_of_mem _ (ih h)

theorem pickEntry_spec {entries : List Str} {seg n : Str}
    (hp : pickEntry entries seg = n) (h : n ≠ []) :
    n ∈ entries ∧ toLowerStr n = toLowerStr seg := by
  unfold pickEntry at hp
  cases h1 : entries.find? (fun e => e == seg) with
  | some m =>
    simp only [h1] at hp
    subst hp
    have hm := List.mem_of_find?_eq_some h1
    have he := List.find?_some h1
    simp at he
    subst he
    exact ⟨hm, rfl⟩
  | none =>
    simp only [h1] at hp
    cases h2 : entries.find? (fun e => toLowerStr e == toLowerStr seg) with
    | some m =>
      simp only [h2] at hp
      subst hp
      have hm := List.mem_of_find?_eq_some h2
      have he := List.find?_some h2
      simp at he
      exact ⟨hm, he⟩
    | none =>
      simp only [h2] at hp
      exact absurd hp.symm h

theorem splitSlash_ne_nil (s : Str) : splitSlash s ≠ [] := by
  cases s with
  | nil => simp [splitSlash]
  | cons c rest =>
    simp only [splitSlash]
    cases h : splitSlash rest with
    | nil => simp
    | cons a as => by_cases hc : c = '/' <;> simp [hc]

theorem splitSlash_no_slash {s : Str} (h : '/' ∉ s) : splitSlash s = [s] := by
  induction s with
  | nil => rfl
  | cons c rest ih =>
    have hc : ¬c = '/' := fun he => h (by simp [he])
    have hr : '/' ∉ rest := fun hm => h (by simp [hm])
    unfold splitSlash
    rw [ih hr]
    simp [hc]

theorem splitSlash_slash_append {s : Str} (t : Str) (h : '/' ∉ s) :
    splitSlash (s ++ '/' :: t) = s :: splitSlash t := by
  induction s with
  | nil =>
    show splitSlash ('/' :: t) = [] :: splitSlash t
    simp only [splitSlash]
    cases hs : splitSlash t with
    | nil => exact absurd hs (splitSlash_ne_nil t)
    | cons a as => simp
  | cons c rest ih =>
    have hc : ¬c = '/' := fun he => h (by simp [he])
    have hr : '/' ∉ rest := fun hm => h (by simp [hm])
    simp only [List.cons_append, splitSlash]
    simp only [hc, if_false, ite_false, List.append_eq]
    rw [ih hr]

theorem splitSlash_joinSlash {l : List Str} (hne : l ≠ [])
    (h : ∀ s ∈ l, '/' ∉ s) : splitSlash (joinSlash l) = l := by
  induction l with
  | nil => exact absurd rfl hne
  | cons s rest ih =>
    cases rest with
    | nil => exact splitSlash_no_slash (h s (by simp))
    | cons s2 rest2 =>
      show splitSlash (s ++ '/' :: joinSlash (s2 :: rest2)) = s :: s2 :: rest2
      rw [splitSlash_slash_append _ (h s (by simp)),
        ih (by simp) (fun x hx => h x (by simp [hx]))]

theorem canonGo_spec (fs : FS)
    (hwf : ∀ kv ∈ fs.dirs, ∀ e ∈ kv.2, '/' ∉ e) (origP : Str)
    (segs : List Str) :
    ∀ curDir built log q log2,
      canonGo fs origP segs curDir built log = (q, true, log2) →
      ∃ names, q = '/' :: joinSlash (built ++ names) ∧
        names.map toLowerStr = segs.map toLowerStr ∧
        ∀ n ∈ names, '/' ∉ n := by
  induction segs with
  | nil =>
    intro curDir built log q log2 h
    unfold canonGo at h
    injection h with h1 h2
    subst h1
    exact ⟨[], by simp, by simp, by simp⟩
  | cons seg rest ih =>
    intro curDir built log q log2 h
    unfold canonGo at h
    split at h
    · simp at h
    · next entries hrd =>
      split at h
      · simp at h
      · next hne0 =>
        obtain ⟨hmem, hlow⟩ := pickEntry_spec rfl hne0
        have hsl : '/' ∉ pickEntry entries seg :=
          hwf _ (lookStr_mem hrd) _ hmem
        split at h
        · next hrest =>
          injection h with h1 h2
          subst h1
          subst hrest
          exact ⟨[pickEntry entries seg], rfl, by simp [hlow], by simp [hsl]⟩
        · split at h
          · obtain ⟨names, hq, hmap, hns⟩ := ih _ _ _ _ _ h
            refine ⟨pickEntry entries seg :: names, ?_, ?_, ?_⟩
            · rw [hq, List.append_assoc]
              rfl
            · simp [hmap, hlow]
            · intro n hn
              rcases List.mem_cons.mp hn with h1 | h1
              · subst h1
                exact hsl
              · exact hns n h1
          · simp at h

/-- C10 (implicit): whenever `canonicalFS` succeeds with `(q, true)`, `q`
agrees with the cleaned input up to letter casing only: `q` has exactly
as many `/`-separated segments as the cleaned form of `p`, and
lowercasing each segment of `q` equals lowercasing the corresponding
segment of the cleaned form of `p` — a successful filesystem rewrite
never adds, removes, or reorders segments (for any filesystem whose
directory entry names contain no `/`, as real ones cannot). -/
theorem canonical_success_lowercase_agree (fs : FS) (root p q : Str)
    (log : List Str) (hwf : ∀ kv ∈ fs.dirs, ∀ e ∈ kv.2, '/' ∉ e)
    (h : canonicalFS fs root p = (q, true, log)) :
    (splitSlash (stripLeadSlash q)).map toLowerStr
        = (splitSlash (stripLeadSlash (pathClean p))).map toLowerStr ∧
    (splitSlash (stripLeadSlash q)).length
        = (splitSlash (stripLeadSlash (pathClean p))).length := by
  simp only [canonicalFS] at h
  repeat' split at h
  all_goals try simp at h
  obtain ⟨names, hq, hmap, hns⟩ := canonGo_spec fs hwf p _ _ _ _ _ _ h
  have hlen : names.length
      = (splitSlash (stripLeadSlash (pathClean p))).length := by
    have := congrArg List.length hmap
    simpa using this
  have hnenil : names ≠ [] := by
    intro he
    rw [he] at hlen
    simp at hlen
    exact splitSlash_ne_nil _ (List.length_eq_zero.mp hlen.symm)
  have hstrip : stripLeadSlash q = joinSlash names := by
    rw [hq]
    simp [stripLeadSlash]
  rw [hstrip, splitSlash_joinSlash hnenil hns]
  exact ⟨hmap, hlen⟩

theorem canonical_success_lowercase_agree_spot :
    (∀ kv ∈ (FS.mk [("/root".data, ["Scripts".data]),
        ("/root/Scripts".data, ["MyFile.TXT".data])] []).dirs,
      ∀ e ∈ kv.2, '/' ∉ e) ∧
    ((splitSlash (stripLeadSlash "/Scripts/MyFile.TXT".data)).map toLowerStr
        = (splitSlash (stripLeadSlash (pathClean "/SCRIPTS/myfile.txt".data))).map
            toLowerStr ∧
     (splitSlash (stripLeadSlash "/Scripts/MyFile.TXT".data)).length
        = (splitSlash (stripLeadSlash (pathClean "/SCRIPTS/myfile.txt".data))).length) :=
  ⟨by decide,
   canonical_success_lowercase_agree
     (FS.mk [("/root".data, ["Scripts".data]),
        ("/root/Scripts".data, ["MyFile.TXT".data])] [])
     "/root".data "/SCRIPTS/myfile.txt".data "/Scripts/MyFile.TXT".data
     ["/root".data, "/root/Scripts".data, "/root/Scripts".data]
     (by decide) rfl⟩

end Casefold
